import Mathlib

/-!
Verification of the meditation sync program (`scripts/beeminder_sync.py`).

The embedding below translates the program's pure logic into Lean:
* civil-calendar arithmetic replacing `datetime` / `pytz` conversion to the
  fixed civil timezone `America/New_York` (post-2007 US DST rules, which is
  what the tz database prescribes for every date the program handles here);
* the Apple Health free-text time extraction (`extract_actual_time_from_apple_health`),
  including its fixed-shape regular-expression search (ASCII digits/letters);
* the qualifier (`check_and_add_qualifying_meditation`) as a pure function of
  the fetched source records, the local store contents and an oracle giving
  the success of each remote create, returning the new store plus the
  ordered trace of local/remote operations it performs;
* the reconciler (`sync_beeminder_with_database`) as the lists of delete and
  create operations it issues;
* the paginated fetch (`BeeminderAPI.get_goal_data`) over an abstract page
  oracle, with explicit fuel standing for the unbounded `while True` loop.

Numeric datapoint values are modelled as rationals (Python floats are
compared, never arithmetically combined, by the program).
-/

/-- A civil (wall-clock) date-time: year, month, day, hour, minute, second. -/
structure CivilDT where
  year : Int
  month : Nat
  day : Nat
  hour : Nat
  minute : Nat
  second : Nat
deriving DecidableEq, Repr

/-- A calendar date `(year, month, day)`, as produced by Python `date()`. -/
abbrev CalDate := Int × Nat × Nat

/-! ### Civil calendar arithmetic (Gregorian, proleptic)

These mirror the standard `days_from_civil` / `civil_from_days` algorithms,
which is what the CPython `datetime` module computes. -/

/-- Days since the Unix epoch of a civil date (proleptic Gregorian). -/
def daysFromCivil (y : Int) (m d : Nat) : Int :=
  let y' : Int := if m ≤ 2 then y - 1 else y
  let era : Int := y'.fdiv 400
  let yoe : Nat := (y' - era * 400).toNat
  let mAdj : Nat := if m > 2 then m - 3 else m + 9
  let doy : Nat := (153 * mAdj + 2) / 5 + d - 1
  let doe : Nat := yoe * 365 + yoe / 4 - yoe / 100 + doy
  era * 146097 + (doe : Int) - 719468

/-- Civil date from days since the Unix epoch. -/
def civilFromDays (z0 : Int) : CalDate :=
  let z : Int := z0 + 719468
  let era : Int := z.fdiv 146097
  let doe : Nat := (z - era * 146097).toNat
  let yoe : Nat := (doe - doe / 1460 + doe / 36524 - doe / 146096) / 365
  let y : Int := (yoe : Int) + era * 400
  let doy : Nat := doe - (365 * yoe + yoe / 4 - yoe / 100)
  let mp : Nat := (5 * doy + 2) / 153
  let d : Nat := doy - (153 * mp + 2) / 5 + 1
  let m : Nat := if mp < 10 then mp + 3 else mp - 9
  (if m ≤ 2 then y + 1 else y, m, d)

/-- Day of week of a day count since the epoch; `0` is Sunday (1970-01-01 was a Thursday). -/
def dayOfWeek (days : Int) : Nat := ((days + 4).fmod 7).toNat

/-- Day of month of the second Sunday of March of a year (US DST start day). -/
def secondSundayMarch (y : Int) : Nat :=
  8 + (7 - dayOfWeek (daysFromCivil y 3 8)) % 7

/-- Day of month of the first Sunday of November of a year (US DST end day). -/
def firstSundayNov (y : Int) : Nat :=
  1 + (7 - dayOfWeek (daysFromCivil y 11 1)) % 7

/-- Whether US Eastern daylight-saving time is in effect at a Unix instant
(post-2007 rules: from 02:00 EST on the second Sunday of March, i.e. 07:00 UTC,
until 02:00 EDT on the first Sunday of November, i.e. 06:00 UTC). -/
def isDST (ts : Int) : Bool :=
  let y := (civilFromDays (ts.fdiv 86400)).1
  let start := daysFromCivil y 3 (secondSundayMarch y) * 86400 + 7 * 3600
  let stop := daysFromCivil y 11 (firstSundayNov y) * 86400 + 6 * 3600
  start ≤ ts && ts < stop

/-- UTC offset, in seconds, of `America/New_York` at a Unix instant. -/
def nycOffset (ts : Int) : Int := if isDST ts then -14400 else -18000

/-- Civil date-time obtained by splitting a shifted Unix count into days and
seconds-of-day. -/
def civilFromUnix (t : Int) : CivilDT :=
  let days := t.fdiv 86400
  let secs := (t.fmod 86400).toNat
  let c := civilFromDays days
  ⟨c.1, c.2.1, c.2.2, secs / 3600, secs / 60 % 60, secs % 60⟩

/-- `datetime.fromtimestamp(ts, tz=NYC_TZ)`: the New York wall-clock civil
date-time of a Unix timestamp. -/
def nycFromTimestamp (ts : Int) : CivilDT := civilFromUnix (ts + nycOffset ts)

/-! ### Records -/

/-- A datapoint as fetched from the remote API: the fields the program reads.
A missing `fulltext` key is modelled as `""` (the program uses `.get('fulltext', '')`). -/
structure Datapoint where
  value : ℚ
  timestamp : Int
  comment : String
  fulltext : String
  id : String
deriving DecidableEq, Repr

/-- A record of the local source-of-truth database (`MeditationDatabase`). -/
structure DBRecord where
  value : ℚ
  timestamp : Int
  comment : String
  id : String
deriving DecidableEq, Repr

/-! ### `extract_actual_time_from_apple_health` -/

/-- The exact comment string marking an Apple Health auto-import. -/
def appleHealthMarker : String := "Auto-entered via Apple Health"

/-- `month_map` of the source: 3-letter month abbreviation to month number. -/
def monthMap (s : String) : Option Nat :=
  if s = "Jan" then some 1 else if s = "Feb" then some 2
  else if s = "Mar" then some 3 else if s = "Apr" then some 4
  else if s = "May" then some 5 else if s = "Jun" then some 6
  else if s = "Jul" then some 7 else if s = "Aug" then some 8
  else if s = "Sep" then some 9 else if s = "Oct" then some 10
  else if s = "Nov" then some 11 else if s = "Dec" then some 12
  else none

/-- Numeric value of a digit string (already validated as digits). -/
def digitsVal (cs : List Char) : Nat :=
  cs.foldl (fun a c => a * 10 + (c.toNat - 48)) 0

/-- Consume a literal character list prefix, returning the remainder. -/
def consumeLit : List Char → List Char → Option (List Char)
  | [], rest => some rest
  | _ :: _, [] => none
  | l :: ls, c :: cs => if c = l then consumeLit ls cs else none

/-- The fields captured by the pattern
`(\d{4})-([A-Za-z]{3})-(\d{2}) entered at (\d{2}):(\d{2})`. -/
structure TimeGroups where
  year : Nat
  monthStr : String
  day : Nat
  hour : Nat
  minute : Nat
deriving DecidableEq, Repr

/-- Try to match the fixed-shape pattern at the start of a character list.
Every piece of the pattern has fixed length, so this is exactly the regex's
behaviour at one position. -/
def matchTimeAt (cs : List Char) : Option TimeGroups :=
  match cs with
  | y1 :: y2 :: y3 :: y4 :: s1 :: a1 :: a2 :: a3 :: s2 :: d1 :: d2 :: rest =>
    if y1.isDigit && y2.isDigit && y3.isDigit && y4.isDigit && s1 = '-' &&
       a1.isAlpha && a2.isAlpha && a3.isAlpha && s2 = '-' &&
       d1.isDigit && d2.isDigit then
      match consumeLit " entered at ".toList rest with
      | some rest2 =>
        match rest2 with
        | h1 :: h2 :: s3 :: n1 :: n2 :: _ =>
          if h1.isDigit && h2.isDigit && s3 = ':' && n1.isDigit && n2.isDigit then
            some ⟨digitsVal [y1, y2, y3, y4], String.mk [a1, a2, a3],
                  digitsVal [d1, d2], digitsVal [h1, h2], digitsVal [n1, n2]⟩
          else none
        | _ => none
      | none => none
    else none
  | _ => none

/-- `re.search`: leftmost match of the pattern anywhere in the text. -/
def searchTime : List Char → Option TimeGroups
  | [] => none
  | c :: rest =>
    match matchTimeAt (c :: rest) with
    | some g => some g
    | none => searchTime rest

/-- Gregorian leap year (as checked by `datetime`). -/
def isLeapYear (y : Nat) : Bool :=
  y % 4 = 0 && (y % 100 ≠ 0 || y % 400 = 0)

/-- Number of days in a month of a year. -/
def daysInMonth (y m : Nat) : Nat :=
  if m = 2 then (if isLeapYear y then 29 else 28)
  else if m = 4 || m = 6 || m = 9 || m = 11 then 30
  else 31

/-- Validity of the parsed calendar values: exactly the cases in which the
`datetime(...)` constructor does not raise `ValueError` (the month always
comes from `monthMap`, hence lies in 1..12; a 4-digit year is below
`MAXYEAR`, so only `MINYEAR = 1` and day/hour/minute ranges can fail). -/
def validDatetime (y m d h mi : Nat) : Bool :=
  1 ≤ y && 1 ≤ d && d ≤ daysInMonth y m && h ≤ 23 && mi ≤ 59

/-- `extract_actual_time_from_apple_health`: for an Apple Health auto-import
datapoint, extract the civil entry time embedded in its `fulltext`. -/
def extract_actual_time_from_apple_health (dp : Datapoint) : Option CivilDT :=
  if dp.comment ≠ appleHealthMarker then none
  else
    match searchTime dp.fulltext.toList with
    | none => none
    | some g =>
      match monthMap g.monthStr with
      | none => none
      | some m =>
        if validDatetime g.year m g.day g.hour g.minute then
          some ⟨(g.year : Int), m, g.day, g.hour, g.minute, 0⟩
        else none

/-! ### The qualifier (`check_and_add_qualifying_meditation`)

The loop body resolves each record's occurrence time, filters by window,
duration and a per-source-timestamp existence guard, groups the survivors by
calendar date keeping the max-value one (Python dict semantics: first
insertion fixes a key's position, updates keep it), then for each kept
candidate appends a derived record locally, attempts the remote create, and
saves the store only when the create succeeded.  Remote create success is an
oracle indexed by call order. -/

/-- The occurrence time the loop uses: the Apple Health extracted time when
available, otherwise the raw timestamp rendered in New York time. -/
def resolveTime (dp : Datapoint) : CivilDT :=
  match extract_actual_time_from_apple_health dp with
  | some t => t
  | none => nycFromTimestamp dp.timestamp

/-- `meditation_time.date()`: calendar date of a record's resolved time. -/
def dateOf (dp : Datapoint) : CalDate :=
  let t := resolveTime dp
  (t.year, t.month, t.day)

/-- Seconds after midnight of a civil time. -/
def timeOfDaySec (t : CivilDT) : Nat := t.hour * 3600 + t.minute * 60 + t.second

/-- `day_5am <= meditation_time <= day_830am`: both bounds carry the record's
own date and timezone object, so the aware-datetime comparison in the source
is exactly this wall-clock time-of-day comparison. -/
def inWindow (t : CivilDT) : Bool :=
  5 * 3600 ≤ timeOfDaySec t && timeOfDaySec t ≤ 8 * 3600 + 30 * 60

/-- The duration gate: the loop `continue`s when `datapoint['value'] < 35`. -/
def durationOk (v : ℚ) : Bool := !(v < 35)

/-- `MeditationDatabase.datapoint_exists`: linear scan for a
(timestamp, value) match. -/
def datapoint_exists (db : List DBRecord) (ts : Int) (v : ℚ) : Bool :=
  db.any (fun r => decide (r.timestamp = ts) && decide (r.value = v))

/-- A record survives all three `continue` gates of the scan loop. -/
def qualifies (db : List DBRecord) (dp : Datapoint) : Bool :=
  inWindow (resolveTime dp) && durationOk dp.value &&
    !(datapoint_exists db dp.timestamp 1)

/-- `qualifying_by_date`: an insertion-ordered association list from calendar
date to the currently best datapoint, mirroring a Python dict. -/
abbrev QMap := List (CalDate × Datapoint)

/-- One dict step: `if date not in d or value > d[date].value: d[date] = dp`.
An update keeps the key's original position; a new key goes to the end. -/
def updateQual : QMap → CalDate → Datapoint → QMap
  | [], d, dp => [(d, dp)]
  | (d', dp') :: rest, d, dp =>
    if d' = d then
      if dp'.value < dp.value then (d, dp) :: rest else (d', dp') :: rest
    else (d', dp') :: updateQual rest d dp

/-- The scan loop: fold the gate-and-group step over the fetched records.
`db` is the store as it stands at scan time (phase two's appends happen only
after this loop has finished). -/
def buildQual (db : List DBRecord) : List Datapoint → QMap → QMap
  | [], m => m
  | dp :: rest, m =>
    if qualifies db dp then buildQual db rest (updateQual m (dateOf dp) dp)
    else buildQual db rest m

/-- Association-list lookup in a `QMap`. -/
def qlookup : QMap → CalDate → Option Datapoint
  | [], _ => none
  | (d', dp') :: rest, d => if d' = d then some dp' else qlookup rest d

/-- Two-digit zero-padded rendering, as `strftime` does for `%H` / `%M`. -/
def fmt2 (n : Nat) : String := if n < 10 then "0" ++ toString n else toString n

/-- `meditation_time.strftime('%H:%M')`. -/
def strfHM (t : CivilDT) : String := fmt2 t.hour ++ ":" ++ fmt2 t.minute

/-- The synthesized derived-record comment.  (The numeric rendering of the
value uses Lean's rational printer; Python's float printer differs in
formatting only, e.g. `50.0` versus `50`.) -/
def mkComment (v : ℚ) (t : CivilDT) : String :=
  "Early meditation: " ++ toString v ++ " minutes at " ++ strfHM t

/-- The locally synthesized identifier of `MeditationDatabase.add_datapoint`. -/
def mkLocalId (ts : Int) (v : ℚ) : String :=
  "local_" ++ toString ts ++ "_" ++ toString v

/-- `MeditationDatabase.add_datapoint`: append a record to the store. -/
def dbAddDatapoint (db : List DBRecord) (v : ℚ) (ts : Int) (c : String) :
    List DBRecord :=
  db ++ [⟨v, ts, c, mkLocalId ts v⟩]

/-- One observable operation of the qualifier's second phase, in program
order: a local append, a remote create attempt (with its outcome), or a
database save. -/
inductive QOp where
  | localAppend (value : ℚ) (timestamp : Int) (comment : String)
  | remoteCreate (value : ℚ) (timestamp : Int) (comment : String) (success : Bool)
  | dbSave
deriving DecidableEq, Repr

/-- The constructor tag of a `QOp`. -/
inductive QOpKind where
  | append
  | create
  | save
deriving DecidableEq, Repr

/-- Project an operation to its tag. -/
def QOp.kind : QOp → QOpKind
  | .localAppend _ _ _ => .append
  | .remoteCreate _ _ _ _ => .create
  | .dbSave => .save

/-- Phase two of the qualifier: for each kept candidate (in dict insertion
order) append the derived record locally, attempt the remote create, and
save the store only if the create succeeded.  Returns the final store and
the ordered operation trace; `k` numbers the create calls for the oracle. -/
def runQueue (oracle : Nat → Bool) : QMap → List DBRecord → Nat →
    List DBRecord × List QOp
  | [], db, _ => (db, [])
  | (_, dp) :: rest, db, k =>
    let t := resolveTime dp
    let c := mkComment dp.value t
    let db' := dbAddDatapoint db 1 dp.timestamp c
    let ok := oracle k
    let res := runQueue oracle rest db' (k + 1)
    (res.1, QOp.localAppend 1 dp.timestamp c :: QOp.remoteCreate 1 dp.timestamp c ok ::
      (if ok then QOp.dbSave :: res.2 else res.2))

/-- `check_and_add_qualifying_meditation` as a pure function of the fetched
source records, the local store and the remote-create success oracle. -/
def check_and_add_qualifying_meditation (oracle : Nat → Bool)
    (meditation_data : List Datapoint) (db : List DBRecord) :
    List DBRecord × List QOp :=
  runQueue oracle (buildQual db meditation_data []) db 0

/-! ### The reconciler (`sync_beeminder_with_database`) -/

/-- A remote datapoint: the fields the reconciler reads. -/
structure RRec where
  timestamp : Int
  value : ℚ
  id : String
deriving DecidableEq, Repr

/-- The reconciliation key of a remote record. -/
def pairOf (r : RRec) : Int × ℚ := (r.timestamp, r.value)

/-- The reconciliation key of a local record. -/
def lpairOf (r : DBRecord) : Int × ℚ := (r.timestamp, r.value)

/-- Number of remote records carrying a given key. -/
def cntPair (l : List RRec) (p : Int × ℚ) : Nat :=
  (l.filter (fun r => decide (pairOf r = p))).length

/-- The remote records the reconciler deletes: one per key in
`beeminder_set - local_set`, namely the first remote record carrying that
key in fetch order.  (Python iterates a set in unspecified order; every
claim below is insensitive to the order across distinct keys.) -/
def syncDeletes (remote : List RRec) (localData : List DBRecord) : List RRec :=
  ((remote.map pairOf).dedup.filter
      (fun p => !decide (p ∈ localData.map lpairOf))).filterMap
    (fun p => remote.find? (fun r => decide (pairOf r = p)))

/-- The comment the reconciler attaches to a created datapoint: that of the
first local record with the key, `""` if none is found. -/
def commentFor (localData : List DBRecord) (p : Int × ℚ) : String :=
  match localData.find? (fun r => decide (lpairOf r = p)) with
  | some r => r.comment
  | none => ""

/-- The create calls the reconciler issues: `(value, timestamp, comment)`,
one per key in `local_set - beeminder_set`. -/
def syncCreates (remote : List RRec) (localData : List DBRecord) :
    List (ℚ × Int × String) :=
  ((localData.map lpairOf).dedup.filter
      (fun p => !decide (p ∈ remote.map pairOf))).map
    (fun p => (p.2, p.1, commentFor localData p))

/-- Erase the first remote record carrying a key. -/
def removeFirstPair : List RRec → Int × ℚ → List RRec
  | [], _ => []
  | r :: rest, p => if pairOf r = p then rest else r :: removeFirstPair rest p

/-- A record as it appears remotely after a successful create (the server
assigns the identifier; no later step reads it). -/
def createdRec (c : ℚ × Int × String) : RRec := ⟨c.2.1, c.1, "srv"⟩

/-- The remote list after one reconciler run whose deletes and creates all
took effect: each delete removes exactly its target (remote identifiers are
unique server-side, and the target is the first record with the key), and
each create appends a record with the created key. -/
def remoteAfterSync (remote : List RRec) (localData : List DBRecord) : List RRec :=
  (((remote.map pairOf).dedup.filter
      (fun p => !decide (p ∈ localData.map lpairOf))).foldl removeFirstPair remote)
    ++ (syncCreates remote localData).map createdRec

/-! ### Paginated fetch (`BeeminderAPI.get_goal_data`) -/

/-- The network's answer for one page: a JSON list, or a transport/HTTP
failure (`requests.exceptions.RequestException`). -/
inductive PageResult where
  | ok (data : List Datapoint)
  | err
deriving DecidableEq, Repr

/-- The records a page contributes to the accumulator. -/
def okData : PageResult → List Datapoint
  | .ok d => d
  | .err => []

/-- Whether the loop stops after this page: a failure, an empty page, or a
page shorter than `per_page = 300`. -/
def pageStops : PageResult → Bool
  | .err => true
  | .ok d => d.length < 300

/-- `get_goal_data` over a page oracle, with fuel standing for the unbounded
`while True`; the claims below always supply enough fuel to reach the
stopping page.  An `err` page contributes nothing and ends the loop, which
returns the records accumulated by the outer frames. -/
def get_goal_data (pages : Nat → PageResult) : Nat → Nat → List Datapoint
  | 0, _ => []
  | fuel + 1, p =>
    match pages p with
    | .err => []
    | .ok d =>
      if d.isEmpty then []
      else d ++ (if d.length < 300 then [] else get_goal_data pages fuel (p + 1))

/-- Concatenation of the data of `k` consecutive pages starting at `start`. -/
def joinPages (pages : Nat → PageResult) : Nat → Nat → List Datapoint
  | _, 0 => []
  | start, k + 1 => okData (pages start) ++ joinPages pages (start + 1) k

/-! ### Derived records and the claim-side operation-order description -/

/-- The derived record the qualifier appends for a kept candidate: value 1,
the source record's original timestamp, the synthesized comment. -/
def derivedRecord (dp : Datapoint) : DBRecord :=
  ⟨1, dp.timestamp, mkComment dp.value (resolveTime dp), mkLocalId dp.timestamp 1⟩

/-- The per-candidate operation order stated declaratively (used to compare
against the trace the program produces): for each kept candidate, an append,
then the remote create attempt, then a save exactly when the create
succeeded. -/
def claimedCandidateOps (oracle : Nat → Bool) : List (Nat × Datapoint) → List QOp
  | [] => []
  | (k, dp) :: rest =>
    let c := mkComment dp.value (resolveTime dp)
    QOp.localAppend 1 dp.timestamp c ::
      QOp.remoteCreate 1 dp.timestamp c (oracle k) ::
      ((if oracle k then [QOp.dbSave] else []) ++ claimedCandidateOps oracle rest)

/-! ### Concrete fixtures used by the closed theorems -/

/-- Apple Health record: raw timestamp 2025-09-26 23:00:00 UTC, entry time
07:21 in the free text, 45 minutes. -/
def dpAppleQ : Datapoint :=
  ⟨45, 1758927600, "Auto-entered via Apple Health",
   "2025-Sep-26 entered at 07:21 by zarathustra via BeemiOS", "t1"⟩

/-- The same record with a non-marker comment. -/
def dpPlainQ : Datapoint :=
  ⟨45, 1758927600, "Manual entry",
   "2025-Sep-26 entered at 07:21 by zarathustra via BeemiOS", "t1"⟩

/-- Marker comment but unparseable free text; raw timestamp
2025-09-26 11:00:00 UTC, which is 07:00 New York time. -/
def dpBadText : Datapoint :=
  ⟨40, 1758884400, "Auto-entered via Apple Health", "Invalid format text", "t1"⟩

/-- A comment that contains the marker only as a proper substring. -/
def dpSubMarker : Datapoint :=
  ⟨45, 1758927600, "Note: Auto-entered via Apple Health today",
   "2025-Sep-26 entered at 07:21 by zarathustra via BeemiOS", "t1"⟩

/-- 35-minute qualifying record, entry time 07:21 on 2025-09-26. -/
def dpEarly35 : Datapoint :=
  ⟨35, 1758945599, "Auto-entered via Apple Health",
   "2025-Sep-26 entered at 07:21 by zarathustra via BeemiOS", "t1"⟩

/-- 50-minute qualifying record on the same calendar date. -/
def dpEarly50 : Datapoint :=
  ⟨50, 1758946000, "Auto-entered via Apple Health",
   "2025-Sep-26 entered at 08:00 by zarathustra via BeemiOS", "t2"⟩

/-- Two distinct remote records sharing a (timestamp, value) key. -/
def rDup1 : RRec := ⟨100, 1, "a"⟩

/-- Second remote record with the same key as `rDup1`. -/
def rDup2 : RRec := ⟨100, 1, "b"⟩

/-- A one-page network: page 1 holds one record, later pages fail. -/
def pagesOne : Nat → PageResult :=
  fun i => if i = 1 then PageResult.ok [dpAppleQ] else PageResult.err

/-! ## Theorems -/

/-- The duration gate passes exactly the values of at least 35. -/
theorem durationOk_iff (v : ℚ) : durationOk v = true ↔ 35 ≤ v := by
  simp [durationOk, not_lt]

/-- C10: the auto-import override is attempted only on whole-field equality
of the comment with "Auto-entered via Apple Health"; any other comment makes
the extraction return nothing, so the record is evaluated at its raw
timestamp. -/
theorem claim_C10_marker_whole_field (dp : Datapoint)
    (h : dp.comment ≠ appleHealthMarker) :
    extract_actual_time_from_apple_health dp = none ∧
      resolveTime dp = nycFromTimestamp dp.timestamp := by
  have he : extract_actual_time_from_apple_health dp = none := by
    unfold extract_actual_time_from_apple_health
    rw [if_pos h]
  refine ⟨he, ?_⟩
  unfold resolveTime
  rw [he]

/-- Witness for C10 at a comment containing the marker as a proper substring. -/
theorem claim_C10_witness :
    dpSubMarker.comment ≠ appleHealthMarker ∧
      extract_actual_time_from_apple_health dpSubMarker = none ∧
      resolveTime dpSubMarker = nycFromTimestamp dpSubMarker.timestamp :=
  ⟨by decide, claim_C10_marker_whole_field dpSubMarker (by decide)⟩

/-- C1 counterexample: a record whose comment is the auto-import marker but
whose free text does not match the pattern is not skipped: it is evaluated
at its raw timestamp (here 07:00 New York time) and produces a derived
record. -/
theorem claim_C1_counterexample :
    dpBadText.comment = appleHealthMarker ∧
    extract_actual_time_from_apple_health dpBadText = none ∧
    resolveTime dpBadText = nycFromTimestamp dpBadText.timestamp ∧
    nycFromTimestamp dpBadText.timestamp = ⟨2025, 9, 26, 7, 0, 0⟩ ∧
    (check_and_add_qualifying_meditation (fun _ => true) [dpBadText] []).1 =
      [derivedRecord dpBadText] := by decide

/-- C1 amended: for a record whose comment is the auto-import marker but
whose free text cannot be parsed, the qualifier falls back to the
raw-timestamp interpretation (exactly as for unmarked records) instead of
skipping the record; the record can then still qualify and produce a
derived record. -/
theorem claim_C1_amended (dp : Datapoint)
    (_hm : dp.comment = appleHealthMarker)
    (hp : extract_actual_time_from_apple_health dp = none) :
    resolveTime dp = nycFromTimestamp dp.timestamp := by
  unfold resolveTime
  rw [hp]

/-- Witness for the amended C1 at the unparseable marker record. -/
theorem claim_C1_witness :
    dpBadText.comment = appleHealthMarker ∧
      resolveTime dpBadText = nycFromTimestamp dpBadText.timestamp :=
  ⟨by decide, claim_C1_amended dpBadText (by decide) (by decide)⟩

/-- C4: a record whose literal timestamp is 2025-09-26 23:00:00 UTC but
whose comment is the auto-import marker and whose free text parses to
2025-Sep-26 07:21 is evaluated at 07:21 New York time and qualifies, while
the otherwise-identical record without the marker is evaluated at the
literal timestamp's local time, 19:00, and does not qualify. -/
theorem claim_C4_autoimport_override :
    civilFromUnix dpAppleQ.timestamp = ⟨2025, 9, 26, 23, 0, 0⟩ ∧
    dpPlainQ.value = dpAppleQ.value ∧
    dpPlainQ.timestamp = dpAppleQ.timestamp ∧
    dpPlainQ.fulltext = dpAppleQ.fulltext ∧
    dpAppleQ.comment = appleHealthMarker ∧
    dpPlainQ.comment ≠ appleHealthMarker ∧
    (35 : ℚ) ≤ dpAppleQ.value ∧
    resolveTime dpAppleQ = ⟨2025, 9, 26, 7, 21, 0⟩ ∧
    inWindow (resolveTime dpAppleQ) = true ∧
    qualifies [] dpAppleQ = true ∧
    resolveTime dpPlainQ = nycFromTimestamp dpPlainQ.timestamp ∧
    nycFromTimestamp dpPlainQ.timestamp = ⟨2025, 9, 26, 19, 0, 0⟩ ∧
    inWindow (resolveTime dpPlainQ) = false ∧
    qualifies [] dpPlainQ = false := by decide

/-- C7: a record passes the gates only if its resolved time is inside the
inclusive window and its value is at least 35; the window accepts exactly
05:00:00 and 08:30:00 and rejects 04:59:59 and 08:30:01 on any date, and
the duration gate accepts 35 and rejects every smaller value. -/
theorem claim_C7_window_and_duration (db : List DBRecord) (dp : Datapoint)
    (y : Int) (m d : Nat) (v : ℚ) :
    (qualifies db dp = true →
      inWindow (resolveTime dp) = true ∧ durationOk dp.value = true ∧
        35 ≤ dp.value) ∧
    inWindow ⟨y, m, d, 5, 0, 0⟩ = true ∧
    inWindow ⟨y, m, d, 8, 30, 0⟩ = true ∧
    inWindow ⟨y, m, d, 4, 59, 59⟩ = false ∧
    inWindow ⟨y, m, d, 8, 30, 1⟩ = false ∧
    durationOk 35 = true ∧
    (v < 35 → durationOk v = false) := by
  have hgate : qualifies db dp = true →
      inWindow (resolveTime dp) = true ∧ durationOk dp.value = true ∧
        35 ≤ dp.value := by
    intro h
    unfold qualifies at h
    simp only [Bool.and_eq_true] at h
    exact ⟨h.1.1, h.1.2, (durationOk_iff dp.value).mp h.1.2⟩
  have hlow : inWindow ⟨y, m, d, 5, 0, 0⟩ = true := by
    unfold inWindow timeOfDaySec
    norm_num
  have hhigh : inWindow ⟨y, m, d, 8, 30, 0⟩ = true := by
    unfold inWindow timeOfDaySec
    norm_num
  have hbefore : inWindow ⟨y, m, d, 4, 59, 59⟩ = false := by
    unfold inWindow timeOfDaySec
    norm_num
  have hafter : inWindow ⟨y, m, d, 8, 30, 1⟩ = false := by
    unfold inWindow timeOfDaySec
    norm_num
  have h35 : durationOk 35 = true := by decide
  have hshort : v < 35 → durationOk v = false := by
    intro hv
    unfold durationOk
    rw [decide_eq_true hv]
    rfl
  exact ⟨hgate, hlow, hhigh, hbefore, hafter, h35, hshort⟩

/-- Witness for C7 at the Apple Health fixture and value 34. -/
theorem claim_C7_witness :
    qualifies [] dpAppleQ = true ∧
    inWindow (resolveTime dpAppleQ) = true ∧ durationOk dpAppleQ.value = true ∧
      (35 : ℚ) ≤ dpAppleQ.value ∧
    (34 : ℚ) < 35 ∧ durationOk (34 : ℚ) = false := by
  have h := claim_C7_window_and_duration [] dpAppleQ 2025 9 26 (34 : ℚ)
  have hq : qualifies [] dpAppleQ = true := by decide
  have h1 := h.1 hq
  exact ⟨hq, h1.1, h1.2.1, h1.2.2, by decide, h.2.2.2.2.2.2 (by decide)⟩

/-- The paging loop returns the concatenation of all full pages followed by
the stopping page's contribution (its data when short, nothing on failure),
given fuel to reach the stopping page. -/
theorem get_goal_data_eq_joinPages (pages : Nat → PageResult) :
    ∀ (k start fuel : Nat),
      (∀ i, start ≤ i → i < start + k → ∃ d, pages i = PageResult.ok d ∧ d.length = 300) →
      pageStops (pages (start + k)) = true →
      k + 1 ≤ fuel →
      get_goal_data pages fuel start =
        joinPages pages start k ++ okData (pages (start + k)) := by
  intro k
  induction k with
  | zero =>
    intro start fuel _ hstop hfuel
    match fuel, hfuel with
    | f + 1, _ =>
      rw [Nat.add_zero] at hstop ⊢
      cases hp : pages start with
      | err =>
        simp [get_goal_data, joinPages, okData, hp]
      | ok d =>
        rw [hp] at hstop
        unfold pageStops at hstop
        have hlt : d.length < 300 := by simpa using hstop
        by_cases he : d = []
        · subst he
          simp [get_goal_data, joinPages, okData, hp]
        · have hne : d.isEmpty = false := by simpa [List.isEmpty_iff] using he
          simp [get_goal_data, joinPages, okData, hp, hne, hlt]
  | succ k ih =>
    intro start fuel hfull hstop hfuel
    obtain ⟨d, hpd, hlen⟩ := hfull start (Nat.le_refl _) (by omega)
    match fuel, hfuel with
    | f + 1, hf =>
      have hne : d.isEmpty = false := by
        cases d
        · simp at hlen
        · rfl
      have hnl : ¬ d.length < 300 := by omega
      have h1 : get_goal_data pages (f + 1) start = d ++ get_goal_data pages f (start + 1) := by
        simp [get_goal_data, hpd, hne, hnl]
      have hsh : start + 1 + k = start + (k + 1) := by omega
      have ih2 := ih (start + 1) f
        (fun i hi1 hi2 => hfull i (by omega) (by omega))
        (by rw [hsh]; exact hstop) (by omega)
      rw [h1, ih2, hsh]
      have h2 : joinPages pages start (k + 1) = okData (pages start) ++ joinPages pages (start + 1) k := rfl
      rw [h2, hpd]
      simp [okData, List.append_assoc]

/-- C8: `get_goal_data` returns the concatenation of all fetched pages in
request order, stopping at the first failed, empty or short page; a
transport failure at any page aborts, without retrying, with exactly the
records accumulated from the previous pages. -/
theorem claim_C8_pagination (pages : Nat → PageResult) (n fuel : Nat)
    (hn : 1 ≤ n)
    (hfull : ∀ i, 1 ≤ i → i < n → ∃ d, pages i = PageResult.ok d ∧ d.length = 300)
    (hstop : pageStops (pages n) = true) (hfuel : n ≤ fuel) :
    get_goal_data pages fuel 1 = joinPages pages 1 (n - 1) ++ okData (pages n) ∧
    (pages n = PageResult.err →
      get_goal_data pages fuel 1 = joinPages pages 1 (n - 1)) := by
  have hsh : 1 + (n - 1) = n := by omega
  have h := get_goal_data_eq_joinPages pages (n - 1) 1 fuel
    (fun i hi1 hi2 => hfull i hi1 (by omega)) (by rw [hsh]; exact hstop) (by omega)
  rw [hsh] at h
  refine ⟨h, fun herr => ?_⟩
  rw [h, herr]
  simp [okData]

/-- Witness for C8 on a one-page network. -/
theorem claim_C8_witness :
    get_goal_data pagesOne 1 1 = joinPages pagesOne 1 0 ++ okData (pagesOne 1) ∧
    get_goal_data pagesOne 1 1 = [dpAppleQ] :=
  ⟨(claim_C8_pagination pagesOne 1 1 (by omega)
      (fun i hi1 hi2 => by omega) (by decide) (by omega)).1,
   by decide⟩

/-- Phase two appends exactly the derived records of the kept candidates, in
order, independent of remote outcomes, and its trace is, per candidate: the
append, then the create attempt, then a save exactly on success. -/
theorem runQueue_spec (oracle : Nat → Bool) :
    ∀ (q : QMap) (db : List DBRecord) (k : Nat),
      runQueue oracle q db k =
        (db ++ q.map (fun e => derivedRecord e.2),
         claimedCandidateOps oracle ((q.map Prod.snd).enumFrom k)) := by
  intro q
  induction q with
  | nil =>
    intro db k
    simp [runQueue, claimedCandidateOps, List.enumFrom]
  | cons e rest ih =>
    intro db k
    obtain ⟨d, dp⟩ := e
    unfold runQueue
    dsimp only
    rw [ih]
    cases hok : oracle k <;>
      simp [dbAddDatapoint, derivedRecord, claimedCandidateOps, List.enumFrom, hok,
        List.append_assoc]

/-- C3 counterexample: with one kept candidate and a failing remote create,
the trace is append-then-create with no save at all (and with a succeeding
create the save comes after the create), refuting the claimed
append-persist-create order. -/
theorem claim_C3_counterexample :
    (check_and_add_qualifying_meditation (fun _ => false) [dpAppleQ] []).1.length = 1 ∧
    ((check_and_add_qualifying_meditation (fun _ => false) [dpAppleQ] []).2.map QOp.kind =
      [QOpKind.append, QOpKind.create]) ∧
    ((check_and_add_qualifying_meditation (fun _ => true) [dpAppleQ] []).2.map QOp.kind =
      [QOpKind.append, QOpKind.create, QOpKind.save]) := by decide

/-- C3 amended: for each kept candidate, in dict order, the qualifier
appends the derived record locally, then attempts the remote create, then
persists the store only when the create succeeded; the local append is
unconditional — the resulting store does not depend on remote outcomes. -/
theorem claim_C3_amended (oracle : Nat → Bool) (med : List Datapoint)
    (db : List DBRecord) :
    check_and_add_qualifying_meditation oracle med db =
      (db ++ (buildQual db med []).map (fun e => derivedRecord e.2),
       claimedCandidateOps oracle (((buildQual db med []).map Prod.snd).enumFrom 0)) ∧
    (check_and_add_qualifying_meditation oracle med db).1 =
      (check_and_add_qualifying_meditation (fun _ => false) med db).1 := by
  have h1 := runQueue_spec oracle (buildQual db med []) db 0
  have h2 := runQueue_spec (fun _ => false) (buildQual db med []) db 0
  unfold check_and_add_qualifying_meditation
  rw [h1, h2]
  exact ⟨rfl, rfl⟩

/-- Unfolding step of the scan for a qualifying record. -/
theorem buildQual_cons_true (db : List DBRecord) (dp : Datapoint)
    (rest : List Datapoint) (m : QMap) (h : qualifies db dp = true) :
    buildQual db (dp :: rest) m = buildQual db rest (updateQual m (dateOf dp) dp) := by
  rw [buildQual, h]
  rw [if_pos rfl]

/-- Unfolding step of the scan for a rejected record. -/
theorem buildQual_cons_false (db : List DBRecord) (dp : Datapoint)
    (rest : List Datapoint) (m : QMap) (h : qualifies db dp = false) :
    buildQual db (dp :: rest) m = buildQual db rest m := by
  rw [buildQual, h]
  rw [if_neg (by simp)]

/-- Lookup after one dict-update step: the updated key maps to the better of
the old and new datapoint (strictly greater replaces), other keys are
untouched. -/
theorem qlookup_updateQual (m : QMap) (d : CalDate) (dp : Datapoint) (d' : CalDate) :
    qlookup (updateQual m d dp) d' =
      if d' = d then
        match qlookup m d with
        | none => some dp
        | some old => if old.value < dp.value then some dp else some old
      else qlookup m d' := by
  induction m with
  | nil =>
    by_cases h : d' = d
    · subst h
      simp [updateQual, qlookup]
    · have hs : ¬ d = d' := fun hh => h (Eq.symm hh)
      simp [updateQual, qlookup, h, hs]
  | cons e rest ih =>
    obtain ⟨d0, dp0⟩ := e
    by_cases h0 : d0 = d
    · subst h0
      by_cases h2 : d' = d0
      · subst h2
        by_cases h1 : dp0.value < dp.value <;>
          simp [updateQual, qlookup, h1]
      · have h2s : ¬ d0 = d' := fun hh => h2 (Eq.symm hh)
        by_cases h1 : dp0.value < dp.value <;>
          simp [updateQual, qlookup, h1, h2, h2s]
    · have h0s : ¬ d = d0 := fun hh => h0 (Eq.symm hh)
      by_cases h2 : d' = d0
      · subst h2
        have hne : ¬ d' = d := fun hh => h0 (hh ▸ rfl)
        simp [updateQual, qlookup, h0s, hne]
      · have h2s : ¬ d0 = d' := fun hh => h2 (Eq.symm hh)
        simp [updateQual, qlookup, h0, h0s, h2s, h2, ih]

/-- A key present in the accumulator survives the scan with a value at least
as large. -/
theorem buildQual_mono (db : List DBRecord) :
    ∀ (l : List Datapoint) (m : QMap) (k : CalDate) (dp0 : Datapoint),
      qlookup m k = some dp0 →
      ∃ dp', qlookup (buildQual db l m) k = some dp' ∧ dp0.value ≤ dp'.value := by
  intro l
  induction l with
  | nil =>
    intro m k dp0 h
    exact ⟨dp0, h, le_refl _⟩
  | cons dp rest ih =>
    intro m k dp0 h
    cases hq : qualifies db dp with
    | false =>
      rw [buildQual_cons_false db dp rest m hq]
      exact ih m k dp0 h
    | true =>
      rw [buildQual_cons_true db dp rest m hq]
      have hup := qlookup_updateQual m (dateOf dp) dp k
      by_cases hk : k = dateOf dp
      · subst hk
        rw [if_pos rfl, h] at hup
        dsimp only at hup
        by_cases hv : dp0.value < dp.value
        · rw [if_pos hv] at hup
          obtain ⟨dp', h1, h2⟩ := ih _ _ dp hup
          exact ⟨dp', h1, le_trans (le_of_lt hv) h2⟩
        · rw [if_neg hv] at hup
          exact ih _ _ dp0 hup
      · rw [if_neg hk] at hup
        exact ih _ k dp0 (by rw [hup, h])

/-- Every qualifying record of the scanned list ends up dominated by the
entry stored for its date. -/
theorem buildQual_cover (db : List DBRecord) :
    ∀ (l : List Datapoint) (m : QMap) (dp : Datapoint),
      dp ∈ l → qualifies db dp = true →
      ∃ dp', qlookup (buildQual db l m) (dateOf dp) = some dp' ∧
        dp.value ≤ dp'.value := by
  intro l
  induction l with
  | nil =>
    intro m dp h
    cases h
  | cons hd rest ih =>
    intro m dp hmem hq
    rcases List.mem_cons.mp hmem with heq | hmem'
    · subst heq
      rw [buildQual_cons_true db dp rest m hq]
      have hup := qlookup_updateQual m (dateOf dp) dp (dateOf dp)
      rw [if_pos rfl] at hup
      cases hm : qlookup m (dateOf dp) with
      | none =>
        rw [hm] at hup
        dsimp only at hup
        exact buildQual_mono db rest _ _ dp hup
      | some old =>
        rw [hm] at hup
        dsimp only at hup
        by_cases hv : old.value < dp.value
        · rw [if_pos hv] at hup
          exact buildQual_mono db rest _ _ dp hup
        · rw [if_neg hv] at hup
          obtain ⟨dp', h1, h2⟩ := buildQual_mono db rest _ _ old hup
          exact ⟨dp', h1, le_trans (not_lt.mp hv) h2⟩
    · cases hq2 : qualifies db hd
      · rw [buildQual_cons_false db hd rest m hq2]
        exact ih _ dp hmem' hq
      · rw [buildQual_cons_true db hd rest m hq2]
        exact ih _ dp hmem' hq

/-- Every entry of the scan's result comes from the accumulator or is a
qualifying record of the scanned list stored under its own date. -/
theorem buildQual_origin (db : List DBRecord) :
    ∀ (l : List Datapoint) (m : QMap) (k : CalDate) (dp' : Datapoint),
      qlookup (buildQual db l m) k = some dp' →
      qlookup m k = some dp' ∨
        (dp' ∈ l ∧ qualifies db dp' = true ∧ dateOf dp' = k) := by
  intro l
  induction l with
  | nil =>
    intro m k dp' h
    exact Or.inl h
  | cons hd rest ih =>
    intro m k dp' h
    cases hq : qualifies db hd with
    | false =>
      rw [buildQual_cons_false db hd rest m hq] at h
      rcases ih _ _ _ h with h1 | h2
      · exact Or.inl h1
      · exact Or.inr ⟨List.mem_cons_of_mem _ h2.1, h2.2⟩
    | true =>
      rw [buildQual_cons_true db hd rest m hq] at h
      rcases ih _ _ _ h with h1 | h2
      · have hup := qlookup_updateQual m (dateOf hd) hd k
        rw [h1] at hup
        by_cases hk : k = dateOf hd
        · rw [if_pos hk] at hup
          cases hm : qlookup m (dateOf hd) with
          | none =>
            rw [hm] at hup
            dsimp only at hup
            have hdp : dp' = hd := by
              injection hup with hh
            subst hdp
            exact Or.inr ⟨List.mem_cons_self _ _, hq, hk.symm⟩
          | some old =>
            rw [hm] at hup
            dsimp only at hup
            by_cases hv : old.value < hd.value
            · rw [if_pos hv] at hup
              have hdp : dp' = hd := by
                injection hup with hh
              subst hdp
              exact Or.inr ⟨List.mem_cons_self _ _, hq, hk.symm⟩
            · rw [if_neg hv] at hup
              have hdp : dp' = old := by
                injection hup with hh
              subst hdp
              exact Or.inl (by rw [hk]; exact hm)
        · rw [if_neg hk] at hup
          exact Or.inl hup.symm
      · exact Or.inr ⟨List.mem_cons_of_mem _ h2.1, h2.2⟩

/-- Keys after one dict-update step: unchanged for an existing key, appended
at the end for a new one. -/
theorem updateQual_keys (m : QMap) (d : CalDate) (dp : Datapoint) :
    (updateQual m d dp).map Prod.fst =
      if d ∈ m.map Prod.fst then m.map Prod.fst else m.map Prod.fst ++ [d] := by
  induction m with
  | nil => simp [updateQual]
  | cons e rest ih =>
    obtain ⟨d0, dp0⟩ := e
    by_cases h0 : d0 = d
    · subst h0
      by_cases h1 : dp0.value < dp.value <;> simp [updateQual, h1]
    · have h0s : ¬ d = d0 := fun hh => h0 (Eq.symm hh)
      by_cases hd : d ∈ rest.map Prod.fst <;>
        simp [updateQual, h0, h0s, hd, ih]

/-- The scan keeps the date keys duplicate-free. -/
theorem buildQual_keys_nodup (db : List DBRecord) :
    ∀ (l : List Datapoint) (m : QMap), ((m.map Prod.fst).Nodup) →
      ((buildQual db l m).map Prod.fst).Nodup := by
  intro l
  induction l with
  | nil =>
    intro m h
    exact h
  | cons dp rest ih =>
    intro m h
    cases hq : qualifies db dp with
    | false =>
      rw [buildQual_cons_false db dp rest m hq]
      exact ih m h
    | true =>
      rw [buildQual_cons_true db dp rest m hq]
      apply ih
      rw [updateQual_keys]
      by_cases hd : dateOf dp ∈ m.map Prod.fst
      · rw [if_pos hd]
        exact h
      · rw [if_neg hd]
        simp [List.nodup_append, h, hd]

/-- With duplicate-free keys, every stored entry is found by lookup. -/
theorem qlookup_of_mem_nodup :
    ∀ (m : QMap), ((m.map Prod.fst).Nodup) →
      ∀ e ∈ m, qlookup m e.1 = some e.2 := by
  intro m
  induction m with
  | nil =>
    intro _ e he
    cases he
  | cons e0 rest ih =>
    intro h e he
    obtain ⟨d0, dp0⟩ := e0
    have hnc : d0 ∉ rest.map Prod.fst ∧ (rest.map Prod.fst).Nodup := by
      simpa [List.nodup_cons] using h
    rcases List.mem_cons.mp he with heq | hm
    · subst heq
      simp [qlookup]
    · have h2 : ¬ d0 = e.1 :=
        fun hh => hnc.1 (hh ▸ List.mem_map_of_mem Prod.fst hm)
      simp only [qlookup]
      rw [if_neg h2]
      exact ih hnc.2 e hm

/-- Every successful lookup corresponds to a stored entry. -/
theorem mem_of_qlookup :
    ∀ (m : QMap) (k : CalDate) (dp' : Datapoint),
      qlookup m k = some dp' → (k, dp') ∈ m := by
  intro m
  induction m with
  | nil =>
    intro k dp' h
    simp [qlookup] at h
  | cons e rest ih =>
    intro k dp' h
    obtain ⟨d0, dp0⟩ := e
    simp only [qlookup] at h
    by_cases h0 : d0 = k
    · rw [if_pos h0] at h
      injection h with hh
      subst h0
      subst hh
      exact List.mem_cons_self _ _
    · rw [if_neg h0] at h
      exact List.mem_cons_of_mem _ (ih k dp' h)

/-- C2 amended: in a single run the qualifier appends exactly one derived
record per distinct calendar date among the qualifying source records — the
max-value qualifying record of that date, carrying its original timestamp
and the synthesized comment built from its value and resolved time.  (The
cross-run guard is per source timestamp only, so repeated runs need not
preserve per-day uniqueness; see the counterexample.) -/
theorem claim_C2_per_day_max (oracle : Nat → Bool) (med : List Datapoint)
    (db : List DBRecord) :
    ((check_and_add_qualifying_meditation oracle med db).1 =
      db ++ (buildQual db med []).map (fun e => derivedRecord e.2)) ∧
    (((buildQual db med []).map Prod.fst).Nodup) ∧
    (∀ e ∈ buildQual db med [],
      e.2 ∈ med ∧ qualifies db e.2 = true ∧ dateOf e.2 = e.1 ∧
      derivedRecord e.2 = ⟨1, e.2.timestamp,
        mkComment e.2.value (resolveTime e.2), mkLocalId e.2.timestamp 1⟩ ∧
      ∀ c ∈ med, qualifies db c = true → dateOf c = e.1 →
        c.value ≤ e.2.value) ∧
    (∀ c ∈ med, qualifies db c = true →
      ∃ e ∈ buildQual db med [], e.1 = dateOf c) := by
  have hnodup : (((buildQual db med []).map Prod.fst)).Nodup :=
    buildQual_keys_nodup db med [] (by simp)
  refine ⟨?_, hnodup, ?_, ?_⟩
  · have h := runQueue_spec oracle (buildQual db med []) db 0
    unfold check_and_add_qualifying_meditation
    rw [h]
  · intro e he
    have hl : qlookup (buildQual db med []) e.1 = some e.2 :=
      qlookup_of_mem_nodup _ hnodup e he
    rcases buildQual_origin db med [] e.1 e.2 hl with h1 | h2
    · simp [qlookup] at h1
    · refine ⟨h2.1, h2.2.1, h2.2.2, rfl, ?_⟩
      intro c hc hcq hcd
      obtain ⟨dp', hdp1, hdp2⟩ := buildQual_cover db med [] c hc hcq
      rw [hcd] at hdp1
      rw [hl] at hdp1
      injection hdp1 with hh
      rw [← hh] at hdp2
      exact hdp2
  · intro c hc hcq
    obtain ⟨dp', hdp1, _⟩ := buildQual_cover db med [] c hc hcq
    exact ⟨(dateOf c, dp'), mem_of_qlookup _ _ _ hdp1, rfl⟩

/-- Witness for the amended C2 on the two same-day fixtures, checking the
kept entry is the 50-minute record dominating the 35-minute one. -/
theorem claim_C2_witness :
    ((check_and_add_qualifying_meditation (fun _ => true) [dpEarly35, dpEarly50] []).1 =
      [] ++ (buildQual [] [dpEarly35, dpEarly50] []).map (fun e => derivedRecord e.2)) ∧
    dpEarly35 ∈ [dpEarly35, dpEarly50] ∧
    qualifies [] dpEarly35 = true ∧
    ((dateOf dpEarly50, dpEarly50) ∈ buildQual [] [dpEarly35, dpEarly50] []) ∧
    dpEarly35.value ≤ dpEarly50.value := by
  have h := claim_C2_per_day_max (fun _ => true) [dpEarly35, dpEarly50] []
  have hmem : (dateOf dpEarly50, dpEarly50) ∈ buildQual [] [dpEarly35, dpEarly50] [] := by
    decide
  have hq35 : qualifies [] dpEarly35 = true := by decide
  have hd : dateOf dpEarly35 = dateOf dpEarly50 := by decide
  refine ⟨h.1, List.mem_cons_self _ _, hq35, hmem, ?_⟩
  exact (h.2.2.1 _ hmem).2.2.2.2 dpEarly35 (List.mem_cons_self _ _) hq35 hd

/-- C2 counterexample: the two same-day fixtures qualify on the same date,
yet running the qualifier twice (remote creates succeeding) leaves two
derived value-1 records in the store, one per run, so per-day uniqueness
does not survive repeated runs. -/
theorem claim_C2_counterexample :
    dateOf dpEarly35 = dateOf dpEarly50 ∧
    qualifies [] dpEarly35 = true ∧ qualifies [] dpEarly50 = true ∧
    (((check_and_add_qualifying_meditation (fun _ => true) [dpEarly35, dpEarly50]
        ((check_and_add_qualifying_meditation (fun _ => true)
          [dpEarly35, dpEarly50] []).1)).1).filter
      (fun r => decide (r.value = 1))).length = 2 := by decide

/-- `find?` by key succeeds whenever the key occurs among the remote pairs,
returning a record with that key. -/
theorem find_pairOf_of_mem (remote : List RRec) (p : Int × ℚ)
    (h : p ∈ remote.map pairOf) :
    ∃ r, remote.find? (fun r => decide (pairOf r = p)) = some r ∧ pairOf r = p := by
  induction remote with
  | nil => simp at h
  | cons r0 rest ih =>
    by_cases h0 : pairOf r0 = p
    · exact ⟨r0, List.find?_cons_of_pos _ (by simpa using h0), h0⟩
    · have hrest : p ∈ rest.map pairOf := by
        rcases List.mem_map.mp h with ⟨r, hr, hpr⟩
        rcases List.mem_cons.mp hr with heq | hr2
        · exact absurd (heq ▸ hpr) h0
        · exact List.mem_map.mpr ⟨r, hr2, hpr⟩
      obtain ⟨r, h1, h2⟩ := ih hrest
      exact ⟨r, by rw [List.find?_cons_of_neg _ (by simpa using h0)]; exact h1, h2⟩

/-- `find?` by key over the local records succeeds whenever the key occurs. -/
theorem find_lpairOf_of_mem (localData : List DBRecord) (p : Int × ℚ)
    (h : p ∈ localData.map lpairOf) :
    ∃ r, localData.find? (fun r => decide (lpairOf r = p)) = some r ∧ lpairOf r = p := by
  induction localData with
  | nil => simp at h
  | cons r0 rest ih =>
    by_cases h0 : lpairOf r0 = p
    · exact ⟨r0, List.find?_cons_of_pos _ (by simpa using h0), h0⟩
    · have hrest : p ∈ rest.map lpairOf := by
        rcases List.mem_map.mp h with ⟨r, hr, hpr⟩
        rcases List.mem_cons.mp hr with heq | hr2
        · exact absurd (heq ▸ hpr) h0
        · exact List.mem_map.mpr ⟨r, hr2, hpr⟩
      obtain ⟨r, h1, h2⟩ := ih hrest
      exact ⟨r, by rw [List.find?_cons_of_neg _ (by simpa using h0)]; exact h1, h2⟩

/-- Counting, among the first-match records of a duplicate-free key list,
those carrying a given key: one if the key is listed, zero otherwise. -/
theorem count_filterMap_find (remote : List RRec) (p : Int × ℚ) :
    ∀ L : List (Int × ℚ), L.Nodup → (∀ q ∈ L, q ∈ remote.map pairOf) →
      ((L.filterMap
          (fun q => remote.find? (fun r => decide (pairOf r = q)))).filter
        (fun r => decide (pairOf r = p))).length = if p ∈ L then 1 else 0 := by
  intro L
  induction L with
  | nil =>
    intro _ _
    simp
  | cons q rest ih =>
    intro hnd hmem
    have hnd' := List.nodup_cons.mp hnd
    obtain ⟨r, hr1, hr2⟩ :=
      find_pairOf_of_mem remote q (hmem q (List.mem_cons_self _ _))
    have hstep : (q :: rest).filterMap
        (fun q => remote.find? (fun r => decide (pairOf r = q))) =
        r :: rest.filterMap (fun q => remote.find? (fun r => decide (pairOf r = q))) := by
      rw [List.filterMap_cons, hr1]
    rw [hstep]
    have ihr := ih hnd'.2 (fun x hx => hmem x (List.mem_cons_of_mem _ hx))
    by_cases hp : q = p
    · subst hp
      have hnotin : q ∉ rest := hnd'.1
      rw [List.filter_cons_of_pos (by simpa using hr2)]
      rw [List.length_cons, ihr, if_neg hnotin, if_pos (List.mem_cons_self _ _)]
    · have hrp : ¬ pairOf r = p := by rw [hr2]; exact hp
      rw [List.filter_cons_of_neg (by simpa using hrp)]
      rw [ihr]
      by_cases hp2 : p ∈ rest
      · rw [if_pos hp2, if_pos (List.mem_cons_of_mem _ hp2)]
      · rw [if_neg hp2, if_neg (by
          intro hc
          rcases List.mem_cons.mp hc with heq | hmm
          · exact hp heq.symm
          · exact hp2 hmm)]

/-- Per key, the reconciler issues exactly one delete when the key is
remote-only and none otherwise. -/
theorem syncDeletes_count (remote : List RRec) (localData : List DBRecord)
    (p : Int × ℚ) :
    ((syncDeletes remote localData).filter (fun r => decide (pairOf r = p))).length =
      if p ∈ remote.map pairOf ∧ p ∉ localData.map lpairOf then 1 else 0 := by
  unfold syncDeletes
  have hnd : ((remote.map pairOf).dedup.filter
      (fun q => !decide (q ∈ localData.map lpairOf))).Nodup :=
    List.Nodup.filter _ (List.nodup_dedup _)
  have hsub : ∀ q ∈ (remote.map pairOf).dedup.filter
      (fun q => !decide (q ∈ localData.map lpairOf)), q ∈ remote.map pairOf :=
    fun q hq => List.mem_dedup.mp (List.mem_of_mem_filter hq)
  rw [count_filterMap_find remote p _ hnd hsub]
  have hiff : p ∈ (remote.map pairOf).dedup.filter
      (fun q => !decide (q ∈ localData.map lpairOf)) ↔
      (p ∈ remote.map pairOf ∧ p ∉ localData.map lpairOf) := by
    simp [List.mem_filter, List.mem_dedup]
  by_cases hp : p ∈ (remote.map pairOf).dedup.filter
      (fun q => !decide (q ∈ localData.map lpairOf))
  · rw [if_pos hp, if_pos (hiff.mp hp)]
  · rw [if_neg hp, if_neg (fun hh => hp (hiff.mpr hh))]

/-- Every issued delete targets the first remote record carrying its key. -/
theorem syncDeletes_first (remote : List RRec) (localData : List DBRecord) :
    ∀ r ∈ syncDeletes remote localData,
      remote.find? (fun r2 => decide (pairOf r2 = pairOf r)) = some r := by
  intro r hr
  unfold syncDeletes at hr
  rcases List.mem_filterMap.mp hr with ⟨q, _, hfind⟩
  have hpr : pairOf r = q := by simpa using List.find?_some hfind
  rw [hpr]
  exact hfind

/-- Counting, among keyed creates of a duplicate-free key list, those with a
given key: one if listed, zero otherwise. -/
theorem count_map_create (localData : List DBRecord) (p : Int × ℚ) :
    ∀ L : List (Int × ℚ), L.Nodup →
      ((L.map (fun q => ((q.2 : ℚ), q.1, commentFor localData q))).filter
        (fun c => decide ((c.2.1, c.1) = p))).length = if p ∈ L then 1 else 0 := by
  intro L
  induction L with
  | nil =>
    intro _
    simp
  | cons q rest ih =>
    intro hnd
    have hnd' := List.nodup_cons.mp hnd
    rw [List.map_cons]
    have hkey : (((q.2 : ℚ), q.1, commentFor localData q).2.1,
        ((q.2 : ℚ), q.1, commentFor localData q).1) = q := rfl
    by_cases hp : q = p
    · subst hp
      rw [List.filter_cons_of_pos (by simp [hkey])]
      rw [List.length_cons, ih hnd'.2, if_neg hnd'.1, if_pos (List.mem_cons_self _ _)]
    · rw [List.filter_cons_of_neg (by simp [hkey, hp])]
      rw [ih hnd'.2]
      by_cases hp2 : p ∈ rest
      · rw [if_pos hp2, if_pos (List.mem_cons_of_mem _ hp2)]
      · rw [if_neg hp2, if_neg (by
          intro hc
          rcases List.mem_cons.mp hc with heq | hmm
          · exact hp heq.symm
          · exact hp2 hmm)]

/-- Per key, the reconciler issues exactly one create when the key is
local-only and none otherwise. -/
theorem syncCreates_count (remote : List RRec) (localData : List DBRecord)
    (p : Int × ℚ) :
    ((syncCreates remote localData).filter
        (fun c => decide ((c.2.1, c.1) = p))).length =
      if p ∈ localData.map lpairOf ∧ p ∉ remote.map pairOf then 1 else 0 := by
  unfold syncCreates
  have hnd : ((localData.map lpairOf).dedup.filter
      (fun q => !decide (q ∈ remote.map pairOf))).Nodup :=
    List.Nodup.filter _ (List.nodup_dedup _)
  rw [count_map_create localData p _ hnd]
  have hiff : p ∈ (localData.map lpairOf).dedup.filter
      (fun q => !decide (q ∈ remote.map pairOf)) ↔
      (p ∈ localData.map lpairOf ∧ p ∉ remote.map pairOf) := by
    simp [List.mem_filter, List.mem_dedup]
  by_cases hp : p ∈ (localData.map lpairOf).dedup.filter
      (fun q => !decide (q ∈ remote.map pairOf))
  · rw [if_pos hp, if_pos (hiff.mp hp)]
  · rw [if_neg hp, if_neg (fun hh => hp (hiff.mpr hh))]

/-- Every issued create carries the comment of the first local record with
its key. -/
theorem syncCreates_comment (remote : List RRec) (localData : List DBRecord) :
    ∀ c ∈ syncCreates remote localData,
      ∃ r, localData.find? (fun x => decide (lpairOf x = (c.2.1, c.1))) = some r ∧
        r.comment = c.2.2 := by
  intro c hc
  unfold syncCreates at hc
  rcases List.mem_map.mp hc with ⟨q, hq, hcq⟩
  have hqm : q ∈ localData.map lpairOf :=
    List.mem_dedup.mp (List.mem_of_mem_filter hq)
  obtain ⟨r, h1, h2⟩ := find_lpairOf_of_mem localData q hqm
  subst hcq
  refine ⟨r, h1, ?_⟩
  unfold commentFor
  rw [h1]

/-- C6: the reconciler issues exactly one delete per (timestamp, value) key
in remote-minus-local — targeting the first remote record with that key in
fetch order — and exactly one create per key in local-minus-remote, with
the comment of the first matching local record; and no other operations. -/
theorem claim_C6_symmetric_difference (remote : List RRec)
    (localData : List DBRecord) :
    (∀ p : Int × ℚ,
      ((syncDeletes remote localData).filter
          (fun r => decide (pairOf r = p))).length =
        if p ∈ remote.map pairOf ∧ p ∉ localData.map lpairOf then 1 else 0) ∧
    (∀ r ∈ syncDeletes remote localData,
      remote.find? (fun r2 => decide (pairOf r2 = pairOf r)) = some r) ∧
    (∀ p : Int × ℚ,
      ((syncCreates remote localData).filter
          (fun c => decide ((c.2.1, c.1) = p))).length =
        if p ∈ localData.map lpairOf ∧ p ∉ remote.map pairOf then 1 else 0) ∧
    (∀ c ∈ syncCreates remote localData,
      ∃ r, localData.find? (fun x => decide (lpairOf x = (c.2.1, c.1))) = some r ∧
        r.comment = c.2.2) :=
  ⟨syncDeletes_count remote localData, syncDeletes_first remote localData,
   syncCreates_count remote localData, syncCreates_comment remote localData⟩

/-- Witness for C6 with one remote-only and one local-only record. -/
theorem claim_C6_witness :
    ((syncDeletes [rDup1] [⟨2, 200, "c2", "i2"⟩]).filter
        (fun r => decide (pairOf r = (100, 1)))).length = 1 ∧
    (∀ r ∈ syncDeletes [rDup1] [⟨2, 200, "c2", "i2"⟩],
      List.find? (fun r2 => decide (pairOf r2 = pairOf r)) [rDup1] = some r) ∧
    ((syncCreates [rDup1] [⟨2, 200, "c2", "i2"⟩]).filter
        (fun c => decide ((c.2.1, c.1) = (200, 2)))).length = 1 ∧
    (∀ c ∈ syncCreates [rDup1] [⟨2, 200, "c2", "i2"⟩],
      ∃ r, List.find? (fun x => decide (lpairOf x = (c.2.1, c.1)))
          [(⟨2, 200, "c2", "i2"⟩ : DBRecord)] = some r ∧
        r.comment = c.2.2) := by
  have h := claim_C6_symmetric_difference [rDup1] [⟨2, 200, "c2", "i2"⟩]
  refine ⟨?_, h.2.1, ?_, h.2.2.2⟩
  · rw [h.1 (100, 1), if_pos (by decide)]
  · rw [h.2.2.1 (200, 2), if_pos (by decide)]

/-- The key count is positive exactly on the keys of the list's records. -/
theorem cntPair_pos_iff (l : List RRec) (p : Int × ℚ) :
    0 < cntPair l p ↔ ∃ r ∈ l, pairOf r = p := by
  simp [cntPair, List.length_pos_iff_exists_mem, List.mem_filter]

/-- C9: when two or more remote records share a key absent from the local
store, exactly one delete is issued for that key, and any issued delete with
that key targets the first matching remote record in fetch order — the
remaining duplicates receive no delete. -/
theorem claim_C9_duplicate_remotes (remote : List RRec)
    (localData : List DBRecord) (p : Int × ℚ)
    (hloc : p ∉ localData.map lpairOf) (hdup : 2 ≤ cntPair remote p) :
    ((syncDeletes remote localData).filter
        (fun r => decide (pairOf r = p))).length = 1 ∧
    (∀ r ∈ syncDeletes remote localData, pairOf r = p →
      remote.find? (fun r2 => decide (pairOf r2 = p)) = some r) := by
  have hmem : p ∈ remote.map pairOf := by
    obtain ⟨r, hr, hpr⟩ := (cntPair_pos_iff remote p).mp (by omega)
    exact List.mem_map.mpr ⟨r, hr, hpr⟩
  constructor
  · rw [syncDeletes_count remote localData p, if_pos ⟨hmem, hloc⟩]
  · intro r hr hpr
    have := syncDeletes_first remote localData r hr
    rw [hpr] at this
    exact this

/-- Witness for C9 on the duplicate remote fixtures. -/
theorem claim_C9_witness :
    ((100, (1 : ℚ)) ∉ List.map lpairOf ([] : List DBRecord)) ∧
    2 ≤ cntPair [rDup1, rDup2] (100, 1) ∧
    ((syncDeletes [rDup1, rDup2] []).filter
        (fun r => decide (pairOf r = (100, 1)))).length = 1 ∧
    (∀ r ∈ syncDeletes [rDup1, rDup2] [], pairOf r = (100, 1) →
      List.find? (fun r2 => decide (pairOf r2 = (100, 1))) [rDup1, rDup2] = some r) := by
  have h := claim_C9_duplicate_remotes [rDup1, rDup2] [] (100, 1)
    (by decide) (by decide)
  exact ⟨by decide, by decide, h.1, h.2⟩

/-- Erasing the first record with a key decrements that key's count. -/
theorem cntPair_removeFirstPair_self (l : List RRec) (p : Int × ℚ) :
    cntPair (removeFirstPair l p) p = cntPair l p - 1 := by
  induction l with
  | nil => simp [removeFirstPair, cntPair]
  | cons r rest ih =>
    by_cases h : pairOf r = p
    · rw [removeFirstPair, if_pos h]
      rw [cntPair, cntPair, List.filter_cons_of_pos (by simpa using h)]
      simp
    · rw [removeFirstPair, if_neg h]
      rw [cntPair, cntPair, List.filter_cons_of_neg (by simpa using h),
        List.filter_cons_of_neg (by simpa using h)]
      exact ih

/-- Erasing the first record with one key leaves other keys' counts alone. -/
theorem cntPair_removeFirstPair_other (l : List RRec) (p q : Int × ℚ)
    (hne : q ≠ p) :
    cntPair (removeFirstPair l q) p = cntPair l p := by
  induction l with
  | nil => rfl
  | cons r rest ih =>
    by_cases h : pairOf r = q
    · rw [removeFirstPair, if_pos h]
      have hrp : ¬ pairOf r = p := by rw [h]; exact hne
      rw [cntPair, cntPair, List.filter_cons_of_neg (by simpa using hrp)]
    · rw [removeFirstPair, if_neg h]
      by_cases h2 : pairOf r = p
      · rw [cntPair, cntPair, List.filter_cons_of_pos (by simpa using h2),
          List.filter_cons_of_pos (by simpa using h2)]
        simpa using ih
      · rw [cntPair, cntPair, List.filter_cons_of_neg (by simpa using h2),
          List.filter_cons_of_neg (by simpa using h2)]
        exact ih

/-- Folding first-match erasure over a duplicate-free key list decrements
exactly the listed keys' counts. -/
theorem cntPair_foldl_remove (p : Int × ℚ) :
    ∀ (ds : List (Int × ℚ)) (l : List RRec), ds.Nodup →
      cntPair (ds.foldl removeFirstPair l) p =
        if p ∈ ds then cntPair l p - 1 else cntPair l p := by
  intro ds
  induction ds with
  | nil =>
    intro l _
    simp
  | cons q rest ih =>
    intro l hnd
    have hnd' := List.nodup_cons.mp hnd
    rw [List.foldl_cons]
    by_cases hq : q = p
    · subst hq
      rw [ih _ hnd'.2, if_neg hnd'.1, cntPair_removeFirstPair_self,
        if_pos (List.mem_cons_self _ _)]
    · rw [ih _ hnd'.2, cntPair_removeFirstPair_other l p q hq]
      by_cases hp : p ∈ rest
      · rw [if_pos hp, if_pos (List.mem_cons_of_mem _ hp)]
      · rw [if_neg hp, if_neg (by
          intro hc
          rcases List.mem_cons.mp hc with heq | hmm
          · exact hq heq.symm
          · exact hp hmm)]

/-- Key counts add over concatenation. -/
theorem cntPair_append (a b : List RRec) (p : Int × ℚ) :
    cntPair (a ++ b) p = cntPair a p + cntPair b p := by
  simp [cntPair, List.filter_append]

/-- Every record the reconciler creates carries a key of the local store. -/
theorem created_pair_mem (remote : List RRec) (localData : List DBRecord) :
    ∀ c ∈ syncCreates remote localData,
      pairOf (createdRec c) ∈ localData.map lpairOf := by
  intro c hc
  unfold syncCreates at hc
  rcases List.mem_map.mp hc with ⟨q, hq, hcq⟩
  subst hcq
  exact List.mem_dedup.mp (List.mem_of_mem_filter hq)

/-- After a run whose operations took effect, no remote record carries a key
absent from the local store — provided no such key was duplicated remotely. -/
theorem remoteAfterSync_no_extra (remote : List RRec) (localData : List DBRecord)
    (hdup : ∀ p, p ∉ localData.map lpairOf → cntPair remote p ≤ 1) :
    ∀ p, p ∉ localData.map lpairOf →
      cntPair (remoteAfterSync remote localData) p = 0 := by
  intro p hp
  unfold remoteAfterSync
  rw [cntPair_append]
  have hnd : ((remote.map pairOf).dedup.filter
      (fun q => !decide (q ∈ localData.map lpairOf))).Nodup :=
    List.Nodup.filter _ (List.nodup_dedup _)
  rw [cntPair_foldl_remove p _ remote hnd]
  have hcr : cntPair ((syncCreates remote localData).map createdRec) p = 0 := by
    rw [cntPair]
    rw [List.length_eq_zero]
    rw [List.filter_eq_nil_iff]
    intro c hc
    rcases List.mem_map.mp hc with ⟨c0, hc0, hcc⟩
    subst hcc
    have hmem := created_pair_mem remote localData c0 hc0
    simp only [decide_eq_true_eq]
    intro hcon
    exact hp (hcon ▸ hmem)
  rw [hcr]
  by_cases hmem : p ∈ (remote.map pairOf).dedup.filter
      (fun q => !decide (q ∈ localData.map lpairOf))
  · rw [if_pos hmem]
    have := hdup p hp
    omega
  · rw [if_neg hmem]
    by_cases hzero : cntPair remote p = 0
    · omega
    · exfalso
      have hpos : 0 < cntPair remote p := Nat.pos_of_ne_zero hzero
      obtain ⟨r, hr, hpr⟩ := (cntPair_pos_iff remote p).mp hpos
      exact hmem (by
        rw [List.mem_filter, List.mem_dedup]
        exact ⟨List.mem_map.mpr ⟨r, hr, hpr⟩, by simpa using hp⟩)

/-- After a run whose operations took effect, every local key is present
remotely. -/
theorem remoteAfterSync_covers (remote : List RRec) (localData : List DBRecord) :
    ∀ p ∈ localData.map lpairOf,
      ∃ r ∈ remoteAfterSync remote localData, pairOf r = p := by
  intro p hp
  by_cases hrm : p ∈ remote.map pairOf
  · have hnd : ((remote.map pairOf).dedup.filter
        (fun q => !decide (q ∈ localData.map lpairOf))).Nodup :=
      List.Nodup.filter _ (List.nodup_dedup _)
    have hnotD : p ∉ (remote.map pairOf).dedup.filter
        (fun q => !decide (q ∈ localData.map lpairOf)) := by
      rw [List.mem_filter]
      intro hc
      have hb := hc.2
      simp only [Bool.not_eq_true', decide_eq_false_iff_not] at hb
      exact hb hp
    have hcnt : cntPair (((remote.map pairOf).dedup.filter
        (fun q => !decide (q ∈ localData.map lpairOf))).foldl
          removeFirstPair remote) p = cntPair remote p := by
      rw [cntPair_foldl_remove p _ remote hnd, if_neg hnotD]
    have hpos : 0 < cntPair remote p := by
      rcases List.mem_map.mp hrm with ⟨r, hr, hpr⟩
      exact (cntPair_pos_iff remote p).mpr ⟨r, hr, hpr⟩
    obtain ⟨r, hr, hpr⟩ := (cntPair_pos_iff _ p).mp (by rw [hcnt]; exact hpos)
    exact ⟨r, by unfold remoteAfterSync; exact List.mem_append_left _ hr, hpr⟩
  · have hpL : p ∈ (localData.map lpairOf).dedup.filter
        (fun q => !decide (q ∈ remote.map pairOf)) := by
      rw [List.mem_filter, List.mem_dedup]
      exact ⟨hp, by simpa using hrm⟩
    have hcm : ((p.2 : ℚ), p.1, commentFor localData p) ∈
        syncCreates remote localData := by
      unfold syncCreates
      exact List.mem_map.mpr ⟨p, hpL, rfl⟩
    refine ⟨createdRec ((p.2 : ℚ), p.1, commentFor localData p), ?_, rfl⟩
    unfold remoteAfterSync
    exact List.mem_append_right _ (List.mem_map.mpr ⟨_, hcm, rfl⟩)

/-- C5 amended: reconciliation is idempotent — the second run issues no
deletes and no creates — for every remote and local record list in which no
(timestamp, value) key absent from the local store is carried by two or
more remote records.  (With such remote duplicates the first run deletes
only the first record with the key, so a second run deletes again; see the
counterexample.) -/
theorem claim_C5_idempotent (remote : List RRec) (localData : List DBRecord)
    (hdup : ∀ p, p ∉ localData.map lpairOf → cntPair remote p ≤ 1) :
    syncDeletes (remoteAfterSync remote localData) localData = [] ∧
    syncCreates (remoteAfterSync remote localData) localData = [] := by
  constructor
  · unfold syncDeletes
    have hfil : ((remoteAfterSync remote localData).map pairOf).dedup.filter
        (fun q => !decide (q ∈ localData.map lpairOf)) = [] := by
      rw [List.filter_eq_nil_iff]
      intro q hq
      have hqm : q ∈ (remoteAfterSync remote localData).map pairOf :=
        List.mem_dedup.mp hq
      rcases List.mem_map.mp hqm with ⟨r, hr, hqr⟩
      simp only [Bool.not_eq_true', decide_eq_false_iff_not, not_not]
      by_contra hcon
      have h0 := remoteAfterSync_no_extra remote localData hdup q hcon
      have hpos : 0 < cntPair (remoteAfterSync remote localData) q :=
        (cntPair_pos_iff _ _).mpr ⟨r, hr, hqr⟩
      omega
    rw [hfil]
    rfl
  · unfold syncCreates
    have hfil : ((localData.map lpairOf).dedup.filter
        (fun q => !decide (q ∈ (remoteAfterSync remote localData).map pairOf))) = [] := by
      rw [List.filter_eq_nil_iff]
      intro q hq
      have hqm : q ∈ localData.map lpairOf := List.mem_dedup.mp hq
      obtain ⟨r, hr, hpr⟩ := remoteAfterSync_covers remote localData q hqm
      simp only [Bool.not_eq_true', decide_eq_false_iff_not, not_not]
      exact List.mem_map.mpr ⟨r, hr, hpr⟩
    rw [hfil]
    rfl

/-- Witness for the amended C5 on a duplicate-free remote list. -/
theorem claim_C5_witness :
    syncDeletes (remoteAfterSync [rDup1] []) [] = [] ∧
    syncCreates (remoteAfterSync [rDup1] []) [] = [] :=
  claim_C5_idempotent [rDup1] []
    (fun p _ => le_trans (List.length_filter_le _ _) (by decide))

/-- C5 counterexample: two remote records share the key (100, 1), absent
locally; the first run deletes only the first of them, so the second run
still issues one delete — reconciliation is not idempotent as stated. -/
theorem claim_C5_counterexample :
    rDup1 ≠ rDup2 ∧ pairOf rDup1 = pairOf rDup2 ∧
    (syncDeletes [rDup1, rDup2] []).length = 1 ∧
    remoteAfterSync [rDup1, rDup2] [] = [rDup2] ∧
    (syncDeletes (remoteAfterSync [rDup1, rDup2] []) []).length = 1 := by decide
